import Mathlib

/-!
Shallow embedding of the path-manipulation library (`src/Path.ts`).

JavaScript strings are modelled as Lean `String` (sequences of characters);
the host-provided `window.location.origin` and `document.location.pathname`
values are threaded through as explicit `origin` / `loc` parameters.
-/

namespace Magic

/-- A character is a path separator when it is `/` or `\` (`pathSplit`, line 34). -/
def isSep (c : Char) : Bool := c == '/' || c == '\\'

/-- The character-by-character loop of `pathSplit` (lines 32-46): `current`
accumulates the run of non-separator characters seen so far. -/
def pathSplitAux (keepEmpty : Bool) : List Char → List Char → List String
  | [], current => if current.length ≠ 0 then [String.mk current] else []
  | c :: rest, current =>
    if isSep c then
      (if !current.isEmpty || keepEmpty then [String.mk current] else []) ++
        pathSplitAux keepEmpty rest []
    else
      pathSplitAux keepEmpty rest (current ++ [c])

/-- `pathSplit` (lines 29-49): split a path string on `/` or `\`;
empty segments are kept only when `keepEmpty` is set, and a trailing empty
run is never pushed. -/
def pathSplit (path : String) (keepEmpty : Bool) : List String :=
  pathSplitAux keepEmpty path.data []

/-- `path.endsWith("/")`. -/
def endsWithSlash (p : String) : Bool := p.data.getLast? == some '/'

/-- JavaScript `p.startsWith(pre)`. -/
def strStartsWith (p pre : String) : Bool := pre.data.isPrefixOf p.data

/-- `isAbsolute` (lines 169-170): first character is `/`, or the string starts
with the external origin. -/
def isAbsolute (origin path : String) : Bool :=
  path.data.head? == some '/' || strStartsWith path origin

/-- One iteration of the `normalize` fold over segments (lines 63-84). -/
def normStep (pathArr : List String) (item : String) : List String :=
  if item = "." then pathArr
  else if item = ".." then
    if pathArr ≠ [] then
      if pathArr.getLast? = some ".." then pathArr ++ [".."]
      else if pathArr.getLast? = some "." then pathArr.dropLast ++ [".."]
      else pathArr.dropLast
    else [".."]
  else pathArr ++ [item]

/-- The `while`-shift loop of lines 86-93 and 157-159: drop leading `..` and
`.` segments. -/
def dropLeadingDots : List String → List String
  | [] => []
  | s :: rest => if s = ".." ∨ s = "." then dropLeadingDots rest else s :: rest

/-- JavaScript `arr.join("/")`. -/
def joinSlash : List String → String
  | [] => ""
  | [s] => s
  | s :: t :: rest => s ++ "/" ++ joinSlash (t :: rest)

/-- `normalize` (lines 57-110). -/
def normalize (origin path : String) : String :=
  let explicitDirectory := endsWithSlash path
  let absoluteDirectory := isAbsolute origin path
  let arr := pathSplit path false
  let pathArr0 := arr.foldl normStep []
  let pathArr := if absoluteDirectory then dropLeadingDots pathArr0 else pathArr0
  if pathArr.isEmpty && absoluteDirectory then "/"
  else
    let pathStr0 := joinSlash pathArr
    let pathStr1 := if pathStr0 = "" then "." else pathStr0
    let pathStr2 := if explicitDirectory then pathStr1 ++ "/" else pathStr1
    if absoluteDirectory && !(pathStr2.data.head? == some '/') then "/" ++ pathStr2
    else pathStr2

/-- `join` (lines 118-127). -/
def join (origin : String) (paths : List String) : String :=
  match paths with
  | [] => "."
  | [p] => normalize origin p
  | p :: q :: rest => normalize origin (joinSlash (p :: q :: rest))

/-- The backwards scan of `resolve` (lines 143-149): the suffix of the
argument list starting at the rightmost absolute element, if any. -/
def resolveScan (origin : String) : List String → Option (List String)
  | [] => none
  | p :: rest =>
    match resolveScan origin rest with
    | some s => some s
    | none => if isAbsolute origin p then some (p :: rest) else none

/-- `resolve` (lines 141-162); `loc` is the external
`document.location.pathname`. -/
def resolve (origin loc : String) (pathSegments : List String) : String :=
  let joined :=
    match resolveScan origin pathSegments with
    | some s => join origin s
    | none => join origin [loc, join origin pathSegments]
  let pathArr := dropLeadingDots (pathSplit joined false)
  "/" ++ joinSlash pathArr

/-- `relative` (lines 176-178). -/
def relative (origin f t : String) : String := join origin [f, t]

/-- The `while (arr[arr.length - 1] === "") arr.pop()` loop of `dirname`
(lines 188-190). -/
def dropTrailingEmpty (arr : List String) : List String :=
  (arr.reverse.dropWhile (fun s => s == "")).reverse

/-- `dirname` (lines 185-206). -/
def dirname (origin path : String) : String :=
  let arr0 := pathSplit path true
  let arr1 := dropTrailingEmpty arr0
  let arr := arr1.dropLast
  let pathStr := joinSlash arr
  if isAbsolute origin path then
    if pathStr.data.head? == some '/' then pathStr else "/" ++ pathStr
  else
    if pathStr = "" then "." else pathStr

/-- `basename` (lines 215-238); `ext = none` models an absent argument. -/
def basename (path : String) (ext : Option String) : String :=
  let fullSlash := path.data.all (fun c => c == '/')
  if fullSlash then
    match ext with
    | none => ""
    | some e => if e = "" ∨ e = path then "" else path
  else
    let fileName := ((pathSplit path false).getLast?).getD ""
    match ext with
    | none => fileName
    | some e =>
      if e ≠ "" ∧ e.data.isSuffixOf fileName.data = true ∧
          e.data.length < fileName.data.length then
        String.mk (fileName.data.take (fileName.data.length - e.data.length))
      else fileName

/-- JavaScript `s.lastIndexOf(c)`, as an `Option Nat` (`none` for `-1`). -/
def lastIndexOfChar (c : Char) : List Char → Option Nat
  | [] => none
  | x :: xs =>
    match lastIndexOfChar c xs with
    | some i => some (i + 1)
    | none => if x == c then some 0 else none

/-- `extname` (lines 246-254). -/
def extname (path : String) : String :=
  let fileName := ((pathSplit path false).getLast?).getD ""
  match lastIndexOfChar '.' fileName.data with
  | none => ""
  | some index =>
    if index = 0 ∨ index = fileName.data.length - 1 then ""
    else String.mk (fileName.data.drop index)

/-- The `ParsedPath` record (lines 4-25). -/
structure ParsedPath where
  root : String
  dir : String
  base : String
  ext : String
  name : String
deriving DecidableEq, Repr

/-- `parse` (lines 261-275). -/
def parse (origin path : String) : ParsedPath :=
  let root := if strStartsWith path "/" then "/" else ""
  let dir := dirname origin path
  let base := basename path none
  let ext := extname path
  let name := basename path (some ext)
  ⟨root, dir, base, ext, name⟩

/-- `FormatInputPathObject = Partial<ParsedPath>` (line 27): all fields
optional. -/
structure FormatInputPathObject where
  root : Option String
  dir : Option String
  base : Option String
  ext : Option String
  name : Option String
deriving DecidableEq, Repr

/-- The prefix loop of `format` (lines 289-295). -/
def formatPrefixLoop (dir joined : String) : List String → String
  | [] => joined
  | pre :: rest =>
    if strStartsWith dir pre && !(strStartsWith joined pre) then pre ++ joined
    else formatPrefixLoop dir joined rest

/-- `format` (lines 282-300). -/
def format (path : FormatInputPathObject) : String :=
  let dir? := path.dir.orElse fun _ => path.root
  let base := path.base.getD (path.name.getD "" ++ path.ext.getD "")
  match dir? with
  | none => base
  | some dir =>
    if dir = "" then base
    else
      let joined := if endsWithSlash dir then dir ++ base else dir ++ "/" ++ base
      formatPrefixLoop dir joined ["./", "../", "/", "."]

/-- The character set left untouched by JavaScript `encodeURI`:
`uriReserved ∪ uriUnescaped ∪ { '#' }`. -/
def uriUnescaped (c : Char) : Bool :=
  (decide ('A' ≤ c) && decide (c ≤ 'Z')) ||
  (decide ('a' ≤ c) && decide (c ≤ 'z')) ||
  (decide ('0' ≤ c) && decide (c ≤ '9')) ||
  c == ';' || c == ',' || c == '/' || c == '?' || c == ':' || c == '@' ||
  c == '&' || c == '=' || c == '+' || c == '$' || c == '-' || c == '_' ||
  c == '.' || c == '!' || c == '~' || c == '*' || c == Char.ofNat 39 ||
  c == '(' || c == ')' || c == '#'

/-- Upper-case hexadecimal digit for `n < 16`. -/
def hexDigit (n : Nat) : Char :=
  if n < 10 then Char.ofNat (48 + n) else Char.ofNat (55 + n)

/-- `%XX` percent-encoding of one byte. -/
def percentByte (b : Nat) : List Char := ['%', hexDigit (b / 16), hexDigit (b % 16)]

/-- UTF-8 bytes of one Unicode scalar value. -/
def utf8Bytes (c : Char) : List Nat :=
  let n := c.toNat
  if n < 128 then [n]
  else if n < 2048 then [192 + n / 64, 128 + n % 64]
  else if n < 65536 then [224 + n / 4096, 128 + (n / 64) % 64, 128 + n % 64]
  else [240 + n / 262144, 128 + (n / 4096) % 64, 128 + (n / 64) % 64, 128 + n % 64]

/-- JavaScript `encodeURI`: characters in the `uriUnescaped` set pass through;
every other character is replaced by the percent-encoding of its UTF-8
bytes. -/
def encodeURI (s : String) : String :=
  String.mk (List.flatten (s.data.map fun c =>
    if uriUnescaped c then [c] else List.flatten ((utf8Bytes c).map percentByte)))

/-- `escape` (line 305): `encodeURI(path)`. -/
def escape (path : String) : String := encodeURI path

/-- Modelled from the spec: the standard URI-component escaping rule
(JavaScript `encodeURIComponent`), under which characters such as `/` and
`:` are percent-encoded — only alphanumerics and `- _ . ! ~ * ' ( )`
pass through. This is the rule the spec claims `escape` uses. -/
def uriComponentUnescaped (c : Char) : Bool :=
  (decide ('A' ≤ c) && decide (c ≤ 'Z')) ||
  (decide ('a' ≤ c) && decide (c ≤ 'z')) ||
  (decide ('0' ≤ c) && decide (c ≤ '9')) ||
  c == '-' || c == '_' || c == '.' || c == '!' || c == '~' || c == '*' ||
  c == Char.ofNat 39 || c == '(' || c == ')'

/-- Modelled from the spec: percent-encoding of a whole string under the
URI-component rule. -/
def encodeURIComponentRule (s : String) : String :=
  String.mk (List.flatten (s.data.map fun c =>
    if uriComponentUnescaped c then [c]
    else List.flatten ((utf8Bytes c).map percentByte)))

/-- The `Path` wrapper class (lines 311-473); `value` is the private
`_value` field. -/
structure Path where
  value : String
deriving DecidableEq, Repr

/-- `Path#copy` (lines 321-323). -/
def Path.copy (p : Path) : Path := ⟨p.value⟩

/-- `Path#toString` / `valueOf` (lines 325-331). -/
def Path.toStr (p : Path) : String := p.value

/-- `Path#[Symbol.iterator]` (lines 348-350): iterating a `Path` yields
`pathSplit(this._value)` with empty segments dropped. -/
def Path.segments (p : Path) : List String := pathSplit p.value false

/-- `Path#normalize` (lines 358-360). -/
def Path.normalize (origin : String) (p : Path) : Path :=
  ⟨Magic.normalize origin p.value⟩

/-- `Path#escape` (lines 470-472). -/
def Path.escape (p : Path) : Path := ⟨Magic.escape p.value⟩

/-- `Path.fromParsedPath` (lines 459-461). -/
def Path.fromParsedPath (x : FormatInputPathObject) : Path := ⟨format x⟩

/-- Conversion of a full `ParsedPath` record to the partial record accepted
by `format` — every field present, as when calling `format(parse(p))`. -/
def ParsedPath.toInput (pp : ParsedPath) : FormatInputPathObject :=
  ⟨some pp.root, some pp.dir, some pp.base, some pp.ext, some pp.name⟩

/-- A well-formed segment: non-empty and free of separator characters, as
produced by `pathSplit` with empty segments dropped. -/
def goodSeg (s : String) : Prop := s ≠ "" ∧ ∀ c ∈ s.data, isSep c = false

/-- Adjacent-character relation: not two consecutive `/`. -/
def noDS (a b : Char) : Prop := ¬(a = '/' ∧ b = '/')

/-! Sanity checks against the behaviour documented in the spec (§8). -/

example : normalize "https://example.com" "a//b/../c/./" = "a/c/" := by decide
example : join "https://example.com" ["a", "b", "..", "c"] = "a/c" := by decide
example : normalize "https://example.com" "../../a" = "../../a" := by decide
example : normalize "https://example.com" "/../a" = "/a" := by decide
example : normalize "https://example.com" "" = "." := by decide
example : dirname "https://example.com" "/a/b/c.txt" = "/a/b" := by decide
example : basename "/a/b/c.txt" (some ".txt") = "c" := by decide
example : extname ".gitignore" = "" := by decide
example : extname "a." = "" := by decide
example : extname "a.b.c" = ".c" := by decide
example : basename "///" none = "" := by decide
example : basename "///" (some "///") = "" := by decide
example : basename "///" (some "x") = "///" := by decide
example : parse "https://example.com" "/a/b/c.txt" =
    ⟨"/", "/a/b", "c.txt", ".txt", "c"⟩ := by decide
example : format ⟨none, some "/a/b", none, some ".txt", some "c"⟩ =
    "/a/b/c.txt" := by decide

/-! Basic facts about string data. -/

theorem data_append (a b : String) : (a ++ b).data = a.data ++ b.data := by
  cases a; cases b; rfl

theorem mk_data (s : String) : String.mk s.data = s := rfl

theorem empty_append (s : String) : "" ++ s = s := by
  cases s; rfl

theorem data_head?_append (a b : String) (h : a.data ≠ []) :
    (a ++ b).data.head? = a.data.head? := by
  rw [data_append, List.head?_append_of_ne_nil _ h]

theorem goodSeg_data_ne_nil {s : String} (h : goodSeg s) : s.data ≠ [] := by
  intro hd
  exact h.1 (by cases s with | mk d => cases hd; rfl)

theorem goodSeg_head_ne_slash {s : String} (h : goodSeg s) :
    s.data.head? ≠ some '/' := by
  intro hh
  have hm : '/' ∈ s.data := by
    cases hd : s.data with
    | nil => rw [hd] at hh; exact absurd hh (by simp)
    | cons c cs =>
      rw [hd] at hh
      simp at hh
      simp [hh]
  have := h.2 '/' hm
  simp [isSep] at this

theorem goodSeg_getLast_ne_slash {s : String} (h : goodSeg s) :
    s.data.getLast? ≠ some '/' := by
  intro hh
  have hm : '/' ∈ s.data := List.mem_of_getLast?_eq_some hh
  have := h.2 '/' hm
  simp [isSep] at this

theorem goodSeg_mem_ne_bs {s : String} (h : ∀ c ∈ s.data, isSep c = false) :
    '\\' ∉ s.data := by
  intro hm
  have := h '\\' hm
  simp [isSep] at this

/-! Facts about `pathSplitAux` / `pathSplit`. -/

theorem pathSplitAux_mem_sepFree (ke : Bool) :
    ∀ (chars current : List Char), (∀ c ∈ current, isSep c = false) →
      ∀ s ∈ pathSplitAux ke chars current, ∀ c ∈ s.data, isSep c = false := by
  intro chars
  induction chars with
  | nil =>
    intro current hcur s hs
    simp only [pathSplitAux] at hs
    split at hs
    · simp at hs; subst hs; exact hcur
    · simp at hs
  | cons c cs ih =>
    intro current hcur s hs
    simp only [pathSplitAux] at hs
    split at hs
    · rw [List.mem_append] at hs
      rcases hs with hs | hs
      · split at hs
        · simp at hs; subst hs; exact hcur
        · simp at hs
      · exact ih [] (by simp) s hs
    · next hc =>
      refine ih (current ++ [c]) ?_ s hs
      intro x hx
      rw [List.mem_append] at hx
      rcases hx with hx | hx
      · exact hcur x hx
      · simp at hx; subst hx; simpa using hc

theorem pathSplitAux_mem_ne_empty :
    ∀ (chars current : List Char), ∀ s ∈ pathSplitAux false chars current, s ≠ "" := by
  intro chars
  induction chars with
  | nil =>
    intro current s hs
    simp only [pathSplitAux] at hs
    split at hs
    · next hlen =>
      simp at hs; subst hs
      intro he
      apply hlen
      have : current = [] := by
        have : (String.mk current).data = ("" : String).data := by rw [he]
        simpa using this
      simp [this]
    · simp at hs
  | cons c cs ih =>
    intro current s hs
    simp only [pathSplitAux] at hs
    split at hs
    · rw [List.mem_append] at hs
      rcases hs with hs | hs
      · split at hs
        · next hcur =>
          simp at hs; subst hs
          simp at hcur
          intro he
          apply hcur
          have : (String.mk current).data = ("" : String).data := by rw [he]
          simpa using this
        · simp at hs
      · exact ih [] s hs
    · exact ih (current ++ [c]) s hs

theorem pathSplit_mem_goodSeg (p : String) : ∀ s ∈ pathSplit p false, goodSeg s :=
  fun s hs =>
    ⟨pathSplitAux_mem_ne_empty p.data [] s hs,
     pathSplitAux_mem_sepFree false p.data [] (by simp) s hs⟩

theorem pathSplit_true_mem_sepFree (p : String) :
    ∀ s ∈ pathSplit p true, ∀ c ∈ s.data, isSep c = false :=
  fun s hs => pathSplitAux_mem_sepFree true p.data [] (by simp) s hs

theorem pathSplitAux_consume (ke : Bool) :
    ∀ (seg : List Char), (∀ c ∈ seg, isSep c = false) →
      ∀ (rest current : List Char),
        pathSplitAux ke (seg ++ rest) current = pathSplitAux ke rest (current ++ seg) := by
  intro seg
  induction seg with
  | nil => intro _ rest current; simp
  | cons c cs ih =>
    intro h rest current
    have hc : isSep c = false := h c (by simp)
    show pathSplitAux ke (c :: (cs ++ rest)) current = _
    simp only [pathSplitAux, hc]
    rw [if_neg (by simp)]
    rw [ih (fun x hx => h x (by simp [hx])) rest (current ++ [c])]
    simp

theorem pathSplitAux_slash (ke : Bool) (rest current : List Char) :
    pathSplitAux ke ('/' :: rest) current =
      (if !current.isEmpty || ke then [String.mk current] else []) ++
        pathSplitAux ke rest [] := by
  simp only [pathSplitAux, isSep]
  rw [if_pos (by simp)]

theorem pathSplitAux_nil (ke : Bool) (current : List Char) :
    pathSplitAux ke [] current =
      if current.length ≠ 0 then [String.mk current] else [] := rfl

/-! Facts about `joinSlash`. -/

theorem slash_data : ("/" : String).data = ['/'] := rfl

theorem str_append_assoc (a b c : String) : a ++ b ++ c = a ++ (b ++ c) := by
  cases a; cases b; cases c
  show String.mk _ = String.mk _
  rw [List.append_assoc]

theorem str_ext {a b : String} (h : a.data = b.data) : a = b := by
  cases a; cases b; cases h; rfl

theorem joinSlash_cons_cons (s t : String) (l : List String) :
    joinSlash (s :: t :: l) = s ++ "/" ++ joinSlash (t :: l) := rfl

theorem joinSlash_data_cons (s : String) (l : List String) (h : l ≠ []) :
    (joinSlash (s :: l)).data = s.data ++ '/' :: (joinSlash l).data := by
  cases l with
  | nil => exact absurd rfl h
  | cons t r =>
    rw [joinSlash_cons_cons, data_append, data_append, slash_data, List.append_assoc]
    rfl

theorem joinSlash_head? (s : String) (l : List String) (hs : s.data ≠ []) :
    (joinSlash (s :: l)).data.head? = s.data.head? := by
  cases l with
  | nil => rfl
  | cons t r =>
    rw [joinSlash_data_cons s (t :: r) (by simp), List.head?_append_of_ne_nil _ hs]

theorem joinSlash_getLast?_good (l : List String) (hg : ∀ s ∈ l, goodSeg s)
    (h : l ≠ []) :
    ∃ c, (joinSlash l).data.getLast? = some c ∧ isSep c = false := by
  induction l with
  | nil => exact absurd rfl h
  | cons s r ih =>
    cases r with
    | nil =>
      have hs : goodSeg s := hg s (by simp)
      have hd := goodSeg_data_ne_nil hs
      show ∃ c, s.data.getLast? = some c ∧ _
      cases hl : s.data.getLast? with
      | none => exact absurd (List.getLast?_eq_none_iff.mp hl) hd
      | some c => exact ⟨c, rfl, hs.2 c (List.mem_of_getLast?_eq_some hl)⟩
    | cons t r2 =>
      obtain ⟨c, hc, hcs⟩ := ih (fun x hx => hg x (List.mem_cons_of_mem s hx)) (by simp)
      refine ⟨c, ?_, hcs⟩
      rw [joinSlash_data_cons s (t :: r2) (by simp)]
      rw [show ('/' :: (joinSlash (t :: r2)).data) = ['/'] ++ (joinSlash (t :: r2)).data
            from rfl]
      rw [← List.append_assoc, List.getLast?_append, hc]
      rfl

theorem joinSlash_mem_data (l : List String) :
    ∀ c ∈ (joinSlash l).data, c = '/' ∨ ∃ s ∈ l, c ∈ s.data := by
  induction l with
  | nil => intro c hc; simp [joinSlash] at hc
  | cons s r ih =>
    cases r with
    | nil => intro c hc; exact Or.inr ⟨s, by simp, hc⟩
    | cons t r2 =>
      intro c hc
      rw [joinSlash_data_cons s _ (by simp)] at hc
      rcases List.mem_append.mp hc with hc | hc
      · exact Or.inr ⟨s, by simp, hc⟩
      · rcases List.mem_cons.mp hc with hc | hc
        · exact Or.inl hc
        · rcases ih c hc with hc | ⟨x, hx, hcx⟩
          · exact Or.inl hc
          · exact Or.inr ⟨x, List.mem_cons_of_mem s hx, hcx⟩

theorem joinSlash_bs_free (l : List String)
    (h : ∀ s ∈ l, ∀ c ∈ s.data, isSep c = false) :
    '\\' ∉ (joinSlash l).data := by
  intro hm
  rcases joinSlash_mem_data l _ hm with h1 | ⟨s, hs, hc⟩
  · exact absurd h1 (by decide)
  · have := h s hs _ hc
    simp [isSep] at this

theorem joinSlash_ne_empty (l : List String) (h : ∀ s ∈ l, goodSeg s)
    (hl : l ≠ []) : joinSlash l ≠ "" := by
  cases l with
  | nil => exact absurd rfl hl
  | cons s r =>
    intro he
    have hs := goodSeg_data_ne_nil (h s (by simp))
    have hh : (joinSlash (s :: r)).data.head? = s.data.head? := joinSlash_head? s r hs
    rw [he] at hh
    cases hd : s.data with
    | nil => exact hs hd
    | cons c cs => rw [hd] at hh; simp at hh

theorem joinSlash_concat (l : List String) (b : String) (h : l ≠ []) :
    joinSlash (l ++ [b]) = joinSlash l ++ "/" ++ b := by
  induction l with
  | nil => exact absurd rfl h
  | cons s r ih =>
    cases r with
    | nil => rfl
    | cons t r2 =>
      show joinSlash (s :: ((t :: r2) ++ [b])) = _
      rw [show (t :: r2) ++ [b] = t :: (r2 ++ [b]) from rfl, joinSlash_cons_cons,
        show t :: (r2 ++ [b]) = (t :: r2) ++ [b] from rfl, ih (by simp),
        joinSlash_cons_cons]
      exact str_ext (by simp [data_append, List.append_assoc])

/-! Split/join round trips. -/

theorem pathSplitAux_joinSlash_false (l : List String) (hl : ∀ s ∈ l, goodSeg s) :
    ∀ trail : List Char, (trail = [] ∨ trail = ['/']) →
      pathSplitAux false ((joinSlash l).data ++ trail) [] = l := by
  induction l with
  | nil =>
    intro trail ht
    rcases ht with ht | ht <;> subst ht
    · rfl
    · simp [joinSlash, pathSplitAux_slash, pathSplitAux_nil]
  | cons s r ih =>
    intro trail ht
    have hs : goodSeg s := hl s (by simp)
    have hlen : s.data.length ≠ 0 :=
      fun h0 => goodSeg_data_ne_nil hs (List.length_eq_zero.mp h0)
    have hne : s.data.isEmpty = false := by
      simp [List.isEmpty_iff]
      exact goodSeg_data_ne_nil hs
    cases r with
    | nil =>
      show pathSplitAux false (s.data ++ trail) [] = [s]
      rw [pathSplitAux_consume false s.data hs.2 trail [], List.nil_append]
      rcases ht with ht | ht <;> subst ht
      · rw [pathSplitAux_nil, if_pos hlen, mk_data]
      · rw [pathSplitAux_slash]
        simp [hne, pathSplitAux_nil, mk_data]
    | cons t r2 =>
      rw [joinSlash_data_cons s (t :: r2) (by simp), List.append_assoc]
      rw [pathSplitAux_consume false s.data hs.2 _ [], List.nil_append]
      rw [show ('/' :: (joinSlash (t :: r2)).data) ++ trail =
            '/' :: ((joinSlash (t :: r2)).data ++ trail) from rfl]
      rw [pathSplitAux_slash]
      rw [ih (fun x hx => hl x (List.mem_cons_of_mem s hx)) trail ht]
      simp [hne, mk_data]

theorem pathSplitAux_joinSlash_true (l : List String) (hl : ∀ s ∈ l, goodSeg s) :
    pathSplitAux true ((joinSlash l).data) [] = l := by
  induction l with
  | nil => rfl
  | cons s r ih =>
    have hs : goodSeg s := hl s (by simp)
    have hlen : s.data.length ≠ 0 :=
      fun h0 => goodSeg_data_ne_nil hs (List.length_eq_zero.mp h0)
    cases r with
    | nil =>
      show pathSplitAux true s.data [] = [s]
      rw [← List.append_nil s.data, pathSplitAux_consume true s.data hs.2 [] [],
        List.nil_append, pathSplitAux_nil, if_pos hlen, mk_data]
    | cons t r2 =>
      rw [joinSlash_data_cons s (t :: r2) (by simp)]
      rw [pathSplitAux_consume true s.data hs.2 _ [], List.nil_append]
      rw [pathSplitAux_slash]
      rw [ih (fun x hx => hl x (List.mem_cons_of_mem s hx))]
      simp [mk_data]

/-! Facts about the `normalize` fold. -/

theorem normStep_nodot (l : List String) (s : String) (h1 : s ≠ ".") (h2 : s ≠ "..") :
    normStep l s = l ++ [s] := by
  simp [normStep, h1, h2]

theorem foldl_normStep_nodots (rest : List String)
    (h : ∀ s ∈ rest, s ≠ "." ∧ s ≠ "..") :
    ∀ init, List.foldl normStep init rest = init ++ rest := by
  induction rest with
  | nil => simp
  | cons s r ih =>
    intro init
    rw [List.foldl_cons, normStep_nodot init s (h s (by simp)).1 (h s (by simp)).2,
      ih (fun x hx => h x (List.mem_cons_of_mem s hx)), List.append_assoc]
    rfl

theorem normStep_dots (j : Nat) :
    normStep (List.replicate j "..") ".." = List.replicate (j + 1) ".." := by
  unfold normStep
  rw [if_neg (by decide), if_pos rfl]
  cases j with
  | zero => simp
  | succ m =>
    rw [if_pos (by simp), if_pos (by rw [List.getLast?_replicate]; simp)]
    rw [← List.replicate_succ' (m + 1)]

theorem foldl_normStep_dots : ∀ (k j : Nat),
    List.foldl normStep (List.replicate j "..") (List.replicate k "..") =
      List.replicate (j + k) ".." := by
  intro k
  induction k with
  | zero => simp
  | succ n ih =>
    intro j
    rw [List.replicate_succ, List.foldl_cons, normStep_dots j, ih (j + 1)]
    congr 1
    omega

theorem normStep_shape (P : String → Prop) (k : Nat) (rest : List String)
    (hrest : ∀ x ∈ rest, P x ∧ x ≠ "." ∧ x ≠ "..") (s : String) (hs : P s) :
    ∃ k2 rest2,
      normStep (List.replicate k ".." ++ rest) s = List.replicate k2 ".." ++ rest2 ∧
        ∀ x ∈ rest2, P x ∧ x ≠ "." ∧ x ≠ ".." := by
  by_cases h1 : s = "."
  · exact ⟨k, rest, by simp [normStep, h1], hrest⟩
  by_cases h2 : s = ".."
  · subst h2
    by_cases hrnil : rest = []
    · subst hrnil
      have heq : normStep (List.replicate k ".." ++ []) ".." =
          List.replicate (k + 1) ".." := by
        rw [List.append_nil]; exact normStep_dots k
      exact ⟨k + 1, [], by rw [heq, List.append_nil], by simp⟩
    · have hrne : rest ≠ [] := hrnil
      have hlast : ∃ x, rest.getLast? = some x ∧ x ∈ rest := by
        cases hl : rest.getLast? with
        | none => exact absurd (List.getLast?_eq_none_iff.mp hl) hrne
        | some x => exact ⟨x, rfl, List.mem_of_getLast?_eq_some hl⟩
      obtain ⟨x, hx, hxm⟩ := hlast
      have hxp := hrest x hxm
      have hgl : (List.replicate k ".." ++ rest).getLast? = some x := by
        rw [List.getLast?_append, hx]; rfl
      have hne : List.replicate k ".." ++ rest ≠ [] := by
        simp [hrne]
      refine ⟨k, rest.dropLast, ?_, ?_⟩
      · unfold normStep
        rw [if_neg (by decide), if_pos rfl, if_pos hne,
          if_neg (by rw [hgl]; simp; intro hc; exact hxp.2.2 hc),
          if_neg (by rw [hgl]; simp; intro hc; exact hxp.2.1 hc),
          List.dropLast_append_of_ne_nil (List.replicate k "..") hrne]
      · intro z hz
        exact hrest z (List.dropLast_subset _ hz)
  · refine ⟨k, rest ++ [s], ?_, ?_⟩
    · rw [normStep_nodot _ s h1 h2, List.append_assoc]
    · intro z hz
      rcases List.mem_append.mp hz with hz | hz
      · exact hrest z hz
      · simp at hz; subst hz; exact ⟨hs, h1, h2⟩

theorem foldl_normStep_shape (P : String → Prop) :
    ∀ (segs : List String), (∀ s ∈ segs, P s) →
      ∀ (k : Nat) (rest : List String),
        (∀ x ∈ rest, P x ∧ x ≠ "." ∧ x ≠ "..") →
        ∃ k2 rest2,
          List.foldl normStep (List.replicate k ".." ++ rest) segs =
            List.replicate k2 ".." ++ rest2 ∧
            ∀ x ∈ rest2, P x ∧ x ≠ "." ∧ x ≠ ".." := by
  intro segs
  induction segs with
  | nil => intro _ k rest hrest; exact ⟨k, rest, rfl, hrest⟩
  | cons s segs2 ih =>
    intro hsegs k rest hrest
    obtain ⟨k2, rest2, hstep, hrest2⟩ :=
      normStep_shape P k rest hrest s (hsegs s (by simp))
    rw [List.foldl_cons, hstep]
    exact ih (fun x hx => hsegs x (List.mem_cons_of_mem s hx)) k2 rest2 hrest2

theorem foldl_normStep_structure (P : String → Prop) (segs : List String)
    (hsegs : ∀ s ∈ segs, P s) :
    ∃ k rest,
      List.foldl normStep [] segs = List.replicate k ".." ++ rest ∧
        ∀ x ∈ rest, P x ∧ x ≠ "." ∧ x ≠ ".." := by
  have h := foldl_normStep_shape P segs hsegs 0 [] (by simp)
  simpa using h

/-! Facts about `dropLeadingDots` and `dropTrailingEmpty`. -/

theorem dropLeadingDots_nodots (l : List String)
    (h : ∀ x ∈ l, x ≠ "." ∧ x ≠ "..") : dropLeadingDots l = l := by
  cases l with
  | nil => rfl
  | cons s r =>
    have hs := h s (by simp)
    simp [dropLeadingDots, hs.1, hs.2]

theorem dropLeadingDots_replicate_append (k : Nat) (rest : List String)
    (h : ∀ x ∈ rest, x ≠ "." ∧ x ≠ "..") :
    dropLeadingDots (List.replicate k ".." ++ rest) = rest := by
  induction k with
  | zero => simpa using dropLeadingDots_nodots rest h
  | succ n ih =>
    rw [List.replicate_succ]
    show dropLeadingDots (".." :: (List.replicate n ".." ++ rest)) = rest
    rw [dropLeadingDots, if_pos (Or.inl rfl)]
    exact ih

theorem dropLeadingDots_head? (l : List String) :
    ∀ s, (dropLeadingDots l).head? = some s → s ≠ ".." ∧ s ≠ "." := by
  induction l with
  | nil => intro s h; simp [dropLeadingDots] at h
  | cons x r ih =>
    intro s h
    by_cases hx : x = ".." ∨ x = "."
    · rw [dropLeadingDots, if_pos hx] at h
      exact ih s h
    · rw [dropLeadingDots, if_neg hx] at h
      simp at h
      subst h
      push_neg at hx
      exact hx

theorem dropLeadingDots_subset (l : List String) :
    ∀ s ∈ dropLeadingDots l, s ∈ l := by
  induction l with
  | nil => intro s hs; simp [dropLeadingDots] at hs
  | cons x r ih =>
    intro s hs
    by_cases hx : x = ".." ∨ x = "."
    · rw [dropLeadingDots, if_pos hx] at hs
      exact List.mem_cons_of_mem x (ih s hs)
    · rw [dropLeadingDots, if_neg hx] at hs
      exact hs

theorem dropTrailingEmpty_of_getLast (l : List String) (x : String)
    (hx : l.getLast? = some x) (hne : x ≠ "") : dropTrailingEmpty l = l := by
  unfold dropTrailingEmpty
  have h1 : l.reverse.head? = some x := by rw [List.head?_reverse, hx]
  cases hr : l.reverse with
  | nil => rw [hr] at h1; simp at h1
  | cons y r =>
    rw [hr] at h1
    simp at h1
    rw [List.dropWhile_cons_of_neg (by simp [h1, hne]), ← hr,
      List.reverse_reverse]

/-! No-double-slash facts. -/

theorem chain'_sepFree (d : List Char) (h : ∀ c ∈ d, isSep c = false) :
    List.Chain' noDS d := by
  induction d with
  | nil => simp
  | cons c r ih =>
    rw [List.chain'_cons']
    refine ⟨?_, ih (fun x hx => h x (List.mem_cons_of_mem c hx))⟩
    intro y _ hcy
    have := h c (by simp)
    simp [isSep, hcy.1] at this

theorem chain'_joinSlash (l : List String) (h : ∀ s ∈ l, goodSeg s) :
    List.Chain' noDS (joinSlash l).data := by
  induction l with
  | nil => simp [joinSlash]
  | cons s r ih =>
    cases r with
    | nil => exact chain'_sepFree s.data (h s (by simp)).2
    | cons t r2 =>
      rw [joinSlash_data_cons s _ (by simp)]
      rw [List.chain'_append]
      refine ⟨chain'_sepFree s.data (h s (by simp)).2, ?_, ?_⟩
      · rw [List.chain'_cons']
        constructor
        · intro y hy hc
          have hh := joinSlash_head? t r2
            (goodSeg_data_ne_nil (h t (by simp)))
          rw [hh] at hy
          have hym : y ∈ t.data := by
            cases hd : t.data with
            | nil => rw [hd] at hy; simp at hy
            | cons c cs =>
              rw [hd] at hy
              simp at hy
              simp [hd, hy]
          have := (h t (by simp)).2 y hym
          simp [isSep, hc.2] at this
        · exact ih (fun x hx => h x (List.mem_cons_of_mem s hx))
      · intro x hx y _ hc
        have hxm : x ∈ s.data := List.mem_of_getLast?_eq_some (by simpa using hx)
        have := (h s (by simp)).2 x hxm
        simp [isSep, hc.1] at this

theorem chain'_joinSlash_trail (l : List String) (h : ∀ s ∈ l, goodSeg s)
    (trail : List Char) (ht : trail = [] ∨ trail = ['/']) :
    List.Chain' noDS ((joinSlash l).data ++ trail) := by
  rcases ht with ht | ht <;> subst ht
  · simpa using chain'_joinSlash l h
  · rw [List.chain'_append]
    refine ⟨chain'_joinSlash l h, by simp, ?_⟩
    intro x hx y hy
    cases l with
    | nil => simp [joinSlash] at hx
    | cons s r =>
      obtain ⟨c, hc, hcs⟩ := joinSlash_getLast?_good (s :: r) h (by simp)
      rw [hc] at hx
      simp at hx
      subst hx
      intro hcon
      simp [isSep, hcon.1] at hcs

theorem chain'_no_consec (d : List Char) (hch : List.Chain' noDS d)
    (pre post : List Char) (h : d = pre ++ '/' :: '/' :: post) : False := by
  subst h
  induction pre with
  | nil =>
    rw [List.nil_append, List.chain'_cons] at hch
    exact hch.1 ⟨rfl, rfl⟩
  | cons c pre2 ih =>
    exact ih (List.chain'_cons'.mp hch).2

theorem strStartsWith_false_of_chain' (q origin : String)
    (hor : ['/', '/'] <:+: origin.data)
    (hq : List.Chain' noDS q.data) : strStartsWith q origin = false := by
  by_contra h
  have h1 : origin.data.isPrefixOf q.data = true := by
    revert h
    unfold strStartsWith
    cases origin.data.isPrefixOf q.data <;> simp
  have h2 : origin.data <+: q.data := by
    rwa [ List.isPrefixOf_iff_prefix] at h1
  have h3 : ['/', '/'] <:+: q.data := hor.trans h2.isInfix
  obtain ⟨pre, post, hpp⟩ := h3
  exact chain'_no_consec q.data hq pre post
    (by rw [← hpp]; simp)

/-! `isAbsolute` helpers. -/

theorem isAbsolute_of_head_slash (origin p : String) (h : p.data.head? = some '/') :
    isAbsolute origin p = true := by
  simp [isAbsolute, h]

theorem isAbsolute_false_intro (origin p : String) (h1 : p.data.head? ≠ some '/')
    (h2 : strStartsWith p origin = false) : isAbsolute origin p = false := by
  simp [isAbsolute, h2, h1]

/-! Structure of `normalize` outputs. -/

theorem append_empty (s : String) : s ++ "" = s :=
  str_ext (by rw [data_append]; simp [String.data])

theorem normalize_absolute_structure (origin p : String)
    (h : isAbsolute origin p = true) :
    normalize origin p = "/" ∨
    ∃ rest : List String, rest ≠ [] ∧
      (∀ s ∈ rest, goodSeg s ∧ s ≠ "." ∧ s ≠ "..") ∧
      normalize origin p =
        "/" ++ (joinSlash rest ++ (if endsWithSlash p = true then "/" else "")) := by
  obtain ⟨k, rest, hfold, hrest⟩ :=
    foldl_normStep_structure goodSeg (pathSplit p false) (pathSplit_mem_goodSeg p)
  have hdots : ∀ x ∈ rest, x ≠ "." ∧ x ≠ ".." :=
    fun x hx => ⟨(hrest x hx).2.1, (hrest x hx).2.2⟩
  have hgood : ∀ x ∈ rest, goodSeg x := fun x hx => (hrest x hx).1
  have hdrop : dropLeadingDots (List.foldl normStep [] (pathSplit p false)) = rest := by
    rw [hfold]
    exact dropLeadingDots_replicate_append k rest hdots
  by_cases hrnil : rest = []
  · left
    simp [normalize, h, hdrop, hrnil]
  · right
    refine ⟨rest, hrnil, hrest, ?_⟩
    have hempty : rest.isEmpty = false := by
      simp [List.isEmpty_iff, hrnil]
    have hjne : joinSlash rest ≠ "" := joinSlash_ne_empty rest hgood hrnil
    obtain ⟨s, r, hsr⟩ := List.exists_cons_of_ne_nil hrnil
    have hsmem : s ∈ rest := by rw [hsr]; simp
    have hjhead : (joinSlash rest).data.head? ≠ some '/' := by
      rw [hsr, joinSlash_head? s r (goodSeg_data_ne_nil (hgood s hsmem))]
      exact goodSeg_head_ne_slash (hgood s hsmem)
    have hjd : (joinSlash rest).data ≠ [] :=
      fun hd => hjne (str_ext (by simp [hd, String.data]))
    cases hend : endsWithSlash p with
    | false =>
      simp [normalize, h, hend, hdrop, hempty, hjne, hjhead, hjd, append_empty]
    | true =>
      have hh2 : (joinSlash rest ++ "/").data.head? ≠ some '/' := by
        rw [data_head?_append _ _ hjd]
        exact hjhead
      simp [normalize, h, hend, hdrop, hempty, hjne, hh2, hjhead, hjd]

theorem normalize_relative_structure (origin p : String)
    (h : isAbsolute origin p = false) :
    ∃ (k : Nat) (rest : List String),
      (∀ s ∈ rest, goodSeg s ∧ s ≠ "." ∧ s ≠ "..") ∧
      normalize origin p =
        (if List.replicate k ".." ++ rest = [] then "."
         else joinSlash (List.replicate k ".." ++ rest)) ++
          (if endsWithSlash p = true then "/" else "") := by
  obtain ⟨k, rest, hfold, hrest⟩ :=
    foldl_normStep_structure goodSeg (pathSplit p false) (pathSplit_mem_goodSeg p)
  refine ⟨k, rest, hrest, ?_⟩
  have hgoodA : ∀ x ∈ List.replicate k ".." ++ rest, goodSeg x := by
    intro x hx
    rcases List.mem_append.mp hx with hx | hx
    · rw [List.eq_of_mem_replicate hx]
      exact ⟨by decide, by decide⟩
    · exact (hrest x hx).1
  by_cases hAnil : List.replicate k ".." ++ rest = []
  · cases hend : endsWithSlash p <;>
      simp [normalize, h, hfold, hend, hAnil, joinSlash, append_empty]
  · have hjne := joinSlash_ne_empty _ hgoodA hAnil
    cases hend : endsWithSlash p <;>
      simp [normalize, h, hfold, hend, hAnil, hjne, append_empty]

/-! Normalize applied to its own outputs. -/

theorem normalize_root (origin : String) : normalize origin "/" = "/" := by
  have habs : isAbsolute origin "/" = true := isAbsolute_of_head_slash origin "/" rfl
  have h1 : pathSplit "/" false = [] := rfl
  simp [normalize, habs, h1, dropLeadingDots]

theorem normalize_dot (origin : String) (h : strStartsWith "." origin = false) :
    normalize origin "." = "." := by
  have habs : isAbsolute origin "." = false :=
    isAbsolute_false_intro origin "." (by decide) h
  have h1 : pathSplit "." false = ["."] := rfl
  have h2 : endsWithSlash "." = false := rfl
  simp [normalize, habs, h1, h2, normStep, joinSlash]

theorem normalize_dotslash (origin : String) (h : strStartsWith "./" origin = false) :
    normalize origin "./" = "./" := by
  have habs : isAbsolute origin "./" = false :=
    isAbsolute_false_intro origin "./" (by decide) h
  have h1 : pathSplit "./" false = ["."] := rfl
  have h2 : endsWithSlash "./" = true := rfl
  have h3 : ("." ++ "/" : String) = "./" := rfl
  simp [normalize, habs, h1, h2, normStep, joinSlash, h3]

theorem trail_data (t : String) (ht : t = "" ∨ t = "/") :
    t.data = [] ∨ t.data = ['/'] := by
  rcases ht with ht | ht <;> subst ht
  · left; rfl
  · right; rfl

theorem normalize_abs_output (origin : String) (rest : List String)
    (hrest : ∀ s ∈ rest, goodSeg s ∧ s ≠ "." ∧ s ≠ "..") (hne : rest ≠ [])
    (t : String) (ht : t = "" ∨ t = "/") :
    normalize origin ("/" ++ (joinSlash rest ++ t)) =
      "/" ++ (joinSlash rest ++ t) := by
  have hgood : ∀ x ∈ rest, goodSeg x := fun x hx => (hrest x hx).1
  have hdots : ∀ x ∈ rest, x ≠ "." ∧ x ≠ ".." :=
    fun x hx => ⟨(hrest x hx).2.1, (hrest x hx).2.2⟩
  have hjne : joinSlash rest ≠ "" := joinSlash_ne_empty rest hgood hne
  have hjd : (joinSlash rest).data ≠ [] :=
    fun hd => hjne (str_ext (by simp [hd, String.data]))
  have hempty : rest.isEmpty = false := by simp [List.isEmpty_iff, hne]
  have hfold2 : List.foldl normStep [] rest = rest := by
    simpa using foldl_normStep_nodots rest hdots []
  have hdrop2 : dropLeadingDots rest = rest := dropLeadingDots_nodots rest hdots
  obtain ⟨s, r, hsr⟩ := List.exists_cons_of_ne_nil hne
  have hsmem : s ∈ rest := by rw [hsr]; simp
  have hjhead : (joinSlash rest).data.head? ≠ some '/' := by
    rw [hsr, joinSlash_head? s r (goodSeg_data_ne_nil (hgood s hsmem))]
    exact goodSeg_head_ne_slash (hgood s hsmem)
  obtain ⟨c, hc, hcs⟩ := joinSlash_getLast?_good rest hgood hne
  rcases ht with ht | ht <;> subst ht
  · rw [append_empty]
    have hqdata : ("/" ++ joinSlash rest).data = '/' :: (joinSlash rest).data := by
      rw [data_append, slash_data]
      rfl
    have habs : isAbsolute origin ("/" ++ joinSlash rest) = true :=
      isAbsolute_of_head_slash origin _ (by rw [hqdata]; rfl)
    have hsplit : pathSplit ("/" ++ joinSlash rest) false = rest := by
      unfold pathSplit
      rw [hqdata, pathSplitAux_slash]
      have h9 := pathSplitAux_joinSlash_false rest hgood [] (Or.inl rfl)
      rw [List.append_nil] at h9
      simpa using h9
    have hends : endsWithSlash ("/" ++ joinSlash rest) = false := by
      unfold endsWithSlash
      rw [hqdata,
        show ('/' :: (joinSlash rest).data) = ['/'] ++ (joinSlash rest).data from rfl,
        List.getLast?_append, hc]
      simp
      intro hcon
      rw [hcon] at hcs
      simp [isSep] at hcs
    simp [normalize, habs, hsplit, hfold2, hdrop2, hends, hempty, hjne, hjhead, hjd]
  · have hqdata : ("/" ++ (joinSlash rest ++ "/")).data =
        '/' :: ((joinSlash rest).data ++ ['/']) := by
      rw [data_append, data_append, slash_data]
      rfl
    have habs : isAbsolute origin ("/" ++ (joinSlash rest ++ "/")) = true :=
      isAbsolute_of_head_slash origin _ (by rw [hqdata]; rfl)
    have hsplit : pathSplit ("/" ++ (joinSlash rest ++ "/")) false = rest := by
      unfold pathSplit
      rw [hqdata, pathSplitAux_slash]
      simpa using pathSplitAux_joinSlash_false rest hgood ['/'] (Or.inr rfl)
    have hends : endsWithSlash ("/" ++ (joinSlash rest ++ "/")) = true := by
      unfold endsWithSlash
      rw [hqdata,
        show ('/' :: ((joinSlash rest).data ++ ['/'])) =
          ('/' :: (joinSlash rest).data) ++ ['/'] from rfl, List.getLast?_concat]
      rfl
    have hh2 : (joinSlash rest ++ "/").data.head? ≠ some '/' := by
      rw [data_head?_append _ _ hjd]
      exact hjhead
    simp [normalize, habs, hsplit, hfold2, hdrop2, hends, hempty, hjne, hh2, hjd,
      hjhead]

theorem normalize_rel_output (origin : String) (k : Nat) (rest : List String)
    (hrest : ∀ s ∈ rest, goodSeg s ∧ s ≠ "." ∧ s ≠ "..")
    (hAnil : List.replicate k ".." ++ rest ≠ [])
    (t : String) (ht : t = "" ∨ t = "/")
    (hnopfx : strStartsWith (joinSlash (List.replicate k ".." ++ rest) ++ t) origin
        = false) :
    normalize origin (joinSlash (List.replicate k ".." ++ rest) ++ t) =
      joinSlash (List.replicate k ".." ++ rest) ++ t := by
  have hgoodA : ∀ x ∈ List.replicate k ".." ++ rest, goodSeg x := by
    intro x hx
    rcases List.mem_append.mp hx with hx | hx
    · rw [List.eq_of_mem_replicate hx]
      exact ⟨by decide, by decide⟩
    · exact (hrest x hx).1
  have hjne : joinSlash (List.replicate k ".." ++ rest) ≠ "" :=
    joinSlash_ne_empty _ hgoodA hAnil
  have hjd : (joinSlash (List.replicate k ".." ++ rest)).data ≠ [] :=
    fun hd => hjne (str_ext (by simp [hd, String.data]))
  have hfoldA : List.foldl normStep [] (List.replicate k ".." ++ rest) =
      List.replicate k ".." ++ rest := by
    rw [List.foldl_append]
    have h1 : List.foldl normStep [] (List.replicate k "..") =
        List.replicate k ".." := by
      have := foldl_normStep_dots k 0
      simpa using this
    rw [h1]
    exact foldl_normStep_nodots rest
      (fun x hx => ⟨(hrest x hx).2.1, (hrest x hx).2.2⟩) _
  obtain ⟨s, r, hsr⟩ := List.exists_cons_of_ne_nil hAnil
  have hsmem : s ∈ List.replicate k ".." ++ rest := by rw [hsr]; simp
  have hjhead : (joinSlash (List.replicate k ".." ++ rest)).data.head? ≠ some '/' := by
    rw [hsr, joinSlash_head? s r (goodSeg_data_ne_nil (hgoodA s hsmem))]
    exact goodSeg_head_ne_slash (hgoodA s hsmem)
  obtain ⟨c, hc, hcs⟩ := joinSlash_getLast?_good _ hgoodA hAnil
  rcases ht with ht | ht <;> subst ht
  · rw [append_empty]
    rw [append_empty] at hnopfx
    have habs : isAbsolute origin (joinSlash (List.replicate k ".." ++ rest))
        = false := isAbsolute_false_intro origin _ hjhead hnopfx
    have hsplit : pathSplit (joinSlash (List.replicate k ".." ++ rest)) false =
        List.replicate k ".." ++ rest := by
      unfold pathSplit
      have h9 := pathSplitAux_joinSlash_false _ hgoodA [] (Or.inl rfl)
      rw [List.append_nil] at h9
      exact h9
    have hends : endsWithSlash (joinSlash (List.replicate k ".." ++ rest))
        = false := by
      unfold endsWithSlash
      rw [hc]
      simp
      intro hcon
      rw [hcon] at hcs
      simp [isSep] at hcs
    simp [normalize, habs, hsplit, hfoldA, hends, hjne]
  · have hqhead : (joinSlash (List.replicate k ".." ++ rest) ++ "/").data.head? ≠
        some '/' := by
      rw [data_head?_append _ _ hjd]
      exact hjhead
    have habs : isAbsolute origin (joinSlash (List.replicate k ".." ++ rest) ++ "/")
        = false := isAbsolute_false_intro origin _ hqhead hnopfx
    have hsplit : pathSplit (joinSlash (List.replicate k ".." ++ rest) ++ "/") false =
        List.replicate k ".." ++ rest := by
      unfold pathSplit
      rw [data_append, show (("/" : String)).data = ['/'] from rfl]
      exact pathSplitAux_joinSlash_false _ hgoodA ['/'] (Or.inr rfl)
    have hends : endsWithSlash (joinSlash (List.replicate k ".." ++ rest) ++ "/")
        = true := by
      unfold endsWithSlash
      rw [data_append, show (("/" : String)).data = ['/'] from rfl,
        List.getLast?_concat]
      rfl
    simp [normalize, habs, hsplit, hfoldA, hends, hjne]

theorem pathSplit_abs_build (rest : List String) (hgood : ∀ x ∈ rest, goodSeg x)
    (t : String) (ht : t = "" ∨ t = "/") :
    pathSplit ("/" ++ (joinSlash rest ++ t)) false = rest := by
  unfold pathSplit
  rw [data_append, data_append, slash_data,
    show ((['/'] : List Char) ++ ((joinSlash rest).data ++ t.data)) =
      '/' :: ((joinSlash rest).data ++ t.data) from rfl]
  rw [pathSplitAux_slash]
  simpa using pathSplitAux_joinSlash_false rest hgood t.data (trail_data t ht)

theorem strStartsWith_slash_append (x : String) :
    strStartsWith ("/" ++ x) "/" = true := by
  unfold strStartsWith
  rw [data_append, slash_data]
  simp

/-- C6 (amended): for every origin string containing `//` (as every web origin
does) and every path string `p`, `normalize` is idempotent:
`normalize(normalize(p)) = normalize(p)`. -/
theorem c6_normalize_idempotent (origin p : String)
    (h : ['/', '/'] <:+: origin.data) :
    normalize origin (normalize origin p) = normalize origin p := by
  cases habs : isAbsolute origin p with
  | true =>
    rcases normalize_absolute_structure origin p habs with hq | ⟨rest, hne, hrest, hq⟩
    · rw [hq, normalize_root]
    · rw [hq]
      exact normalize_abs_output origin rest hrest hne _
        (by cases endsWithSlash p <;> simp)
  | false =>
    obtain ⟨k, rest, hrest, hq⟩ := normalize_relative_structure origin p habs
    have hgoodA : ∀ x ∈ List.replicate k ".." ++ rest, goodSeg x := by
      intro x hx
      rcases List.mem_append.mp hx with hx | hx
      · rw [List.eq_of_mem_replicate hx]
        exact ⟨by decide, by decide⟩
      · exact (hrest x hx).1
    by_cases hAnil : List.replicate k ".." ++ rest = []
    · rw [hq, if_pos hAnil]
      have hT : (if endsWithSlash p = true then ("/" : String) else "") = "/" ∨
          (if endsWithSlash p = true then ("/" : String) else "") = "" := by
        cases endsWithSlash p <;> simp
      rcases hT with hT | hT <;> rw [hT]
      · rw [show ("." ++ "/" : String) = "./" from rfl]
        refine normalize_dotslash origin (strStartsWith_false_of_chain' ("./") origin h ?_)
        show List.Chain' noDS ['.', '/']
        rw [List.chain'_cons]
        exact ⟨fun hc => absurd hc.1 (by decide), List.chain'_singleton '/'⟩
      · rw [append_empty]
        exact normalize_dot origin (strStartsWith_false_of_chain' (".") origin h
          (chain'_sepFree _ (by decide)))
    · rw [hq, if_neg hAnil]
      have hT : (if endsWithSlash p = true then ("/" : String) else "") = "" ∨
          (if endsWithSlash p = true then ("/" : String) else "") = "/" := by
        cases endsWithSlash p <;> simp
      refine normalize_rel_output origin k rest hrest hAnil _ hT ?_
      refine strStartsWith_false_of_chain' _ origin h ?_
      rw [data_append]
      exact chain'_joinSlash_trail _ hgoodA _ (trail_data _ hT)

/-- C6 counterexample: with the external origin `"x"`, `normalize` is not
idempotent at `"./x"` — the first pass yields `"x"`, which the second pass
classifies as absolute (it starts with the origin) and turns into `"/x"`. -/
theorem c6_counterexample :
    normalize "x" "./x" = "x" ∧ normalize "x" (normalize "x" "./x") = "/x" ∧
      ("/x" : String) ≠ "x" := by
  refine ⟨by decide, by decide, by decide⟩

theorem c6_witness :
    normalize "https://example.com" (normalize "https://example.com" "a/../b/./c/") =
      normalize "https://example.com" "a/../b/./c/" :=
  c6_normalize_idempotent "https://example.com" "a/../b/./c/" (by decide)

/-- C7: for every origin and every path `p` classified absolute, the segment
sequence of `normalize(p)` has no leading `..` segment, and the result begins
with `/`. -/
theorem c7_normalize_absolute_invariant (origin p : String)
    (h : isAbsolute origin p = true) :
    strStartsWith (normalize origin p) "/" = true ∧
      (pathSplit (normalize origin p) false).head? ≠ some ".." := by
  rcases normalize_absolute_structure origin p h with hq | ⟨rest, hne, hrest, hq⟩
  · rw [hq]
    exact ⟨by decide, by decide⟩
  · rw [hq]
    have hgood : ∀ x ∈ rest, goodSeg x := fun x hx => (hrest x hx).1
    have hT : (if endsWithSlash p = true then ("/" : String) else "") = "" ∨
        (if endsWithSlash p = true then ("/" : String) else "") = "/" := by
      cases endsWithSlash p <;> simp
    refine ⟨strStartsWith_slash_append _, ?_⟩
    rw [pathSplit_abs_build rest hgood _ hT]
    obtain ⟨s, r, hsr⟩ := List.exists_cons_of_ne_nil hne
    rw [hsr]
    simp
    exact (hrest s (by rw [hsr]; simp)).2.2

theorem c7_witness :
    strStartsWith (normalize "https://example.com" "/a/../..") "/" = true ∧
      (pathSplit (normalize "https://example.com" "/a/../..") false).head? ≠
        some ".." :=
  c7_normalize_absolute_invariant "https://example.com" "/a/../.." (by decide)

theorem resolve_shape (origin loc : String) (args : List String) :
    ∃ j : String, resolve origin loc args =
      "/" ++ joinSlash (dropLeadingDots (pathSplit j false)) := by
  unfold resolve
  exact ⟨_, rfl⟩

/-- C5: for every argument list (and every value of the external
current-location and origin strings), `resolve(...)` returns a string that
starts with `/`, and the segment sequence of the result has no leading `.`
or `..` segment. -/
theorem c5_resolve_absolute (origin loc : String) (args : List String) :
    strStartsWith (resolve origin loc args) "/" = true ∧
      (pathSplit (resolve origin loc args) false).head? ≠ some "." ∧
      (pathSplit (resolve origin loc args) false).head? ≠ some ".." := by
  obtain ⟨j, hj⟩ := resolve_shape origin loc args
  rw [hj]
  have hsub : ∀ x ∈ dropLeadingDots (pathSplit j false), goodSeg x :=
    fun x hx => pathSplit_mem_goodSeg j x (dropLeadingDots_subset _ x hx)
  have hsplit : pathSplit ("/" ++ joinSlash (dropLeadingDots (pathSplit j false)))
      false = dropLeadingDots (pathSplit j false) := by
    have h9 := pathSplit_abs_build (dropLeadingDots (pathSplit j false)) hsub ""
      (Or.inl rfl)
    rw [append_empty] at h9
    exact h9
  refine ⟨strStartsWith_slash_append _, ?_, ?_⟩
  · rw [hsplit]
    intro hcon
    exact (dropLeadingDots_head? _ _ hcon).2 rfl
  · rw [hsplit]
    intro hcon
    exact (dropLeadingDots_head? _ _ hcon).1 rfl

/-- C8: `join` with zero arguments returns `.`; with one argument it returns
`normalize` of that argument; with two or more arguments it returns
`normalize` of the arguments joined with `/` — absoluteness is decided only
by the final concatenated string, since `normalize` classifies that string. -/
theorem c8_join_spec (origin : String) :
    join origin [] = "." ∧ (∀ p, join origin [p] = normalize origin p) ∧
      ∀ ps : List String, 2 ≤ ps.length →
        join origin ps = normalize origin (joinSlash ps) := by
  refine ⟨rfl, fun p => rfl, ?_⟩
  intro ps hps
  cases ps with
  | nil => simp at hps
  | cons p rest =>
    cases rest with
    | nil => simp at hps
    | cons q rest2 => rfl

theorem c8_witness :
    join "https://example.com" ["a", "b"] =
      normalize "https://example.com" (joinSlash ["a", "b"]) :=
  (c8_join_spec "https://example.com").2.2 ["a", "b"] (by decide)

theorem formatPrefixLoop_eq_of_prefix (dir joined : String)
    (h : dir.data <+: joined.data) :
    ∀ l : List String, formatPrefixLoop dir joined l = joined := by
  intro l
  induction l with
  | nil => rfl
  | cons pre rest ih =>
    by_cases hp : strStartsWith dir pre = true
    · have hpj : strStartsWith joined pre = true := by
        unfold strStartsWith at hp ⊢
        rw [ List.isPrefixOf_iff_prefix] at hp ⊢
        exact hp.trans h
      simp only [formatPrefixLoop, hp, hpj]
      simpa using ih
    · have hp2 : strStartsWith dir pre = false := by
        cases hx : strStartsWith dir pre
        · rfl
        · exact absurd hx hp
      simp only [formatPrefixLoop, hp2]
      simpa using ih

theorem format_of_dir (x : FormatInputPathObject) (d : String)
    (hd : x.dir.orElse (fun _ => x.root) = some d) (hne : d ≠ "") :
    format x =
      if endsWithSlash d = true then
        d ++ x.base.getD (x.name.getD "" ++ x.ext.getD "")
      else d ++ "/" ++ x.base.getD (x.name.getD "" ++ x.ext.getD "") := by
  unfold format
  rw [hd]
  show (if d = "" then _ else _) = _
  rw [if_neg hne]
  cases hend : endsWithSlash d with
  | true =>
    rw [if_pos rfl]
    apply formatPrefixLoop_eq_of_prefix
    rw [data_append]
    exact List.prefix_append _ _
  | false =>
    rw [if_neg (by simp)]
    apply formatPrefixLoop_eq_of_prefix
    rw [str_append_assoc, data_append]
    exact List.prefix_append _ _

/-- C9: whenever the `dir` field (defaulted to `root` when absent) is a
non-empty string, `format` returns exactly `dir + base` when `dir` ends with
`/` and `dir + "/" + base` otherwise — the prefix-prepending step never
alters the result, because the joined string always begins with `dir`. -/
theorem c9_format_spec (x : FormatInputPathObject) (d : String)
    (hd : x.dir.orElse (fun _ => x.root) = some d) (hne : d ≠ "") :
    format x =
      if endsWithSlash d = true then
        d ++ x.base.getD (x.name.getD "" ++ x.ext.getD "")
      else d ++ "/" ++ x.base.getD (x.name.getD "" ++ x.ext.getD "") :=
  format_of_dir x d hd hne

theorem c9_witness :
    format (FormatInputPathObject.mk (some "/") (some "/a") (some "b.txt")
      (some ".txt") (some "b")) = "/a/b.txt" := by
  have h := c9_format_spec (FormatInputPathObject.mk (some "/") (some "/a")
    (some "b.txt") (some ".txt") (some "b")) "/a" rfl (by decide)
  rw [h]
  decide

/-- C10: every segment produced by the segmenter with empty segments dropped
(which is what iterating a `Path` yields) is a non-empty string containing
neither `/` nor `\`. -/
theorem c10_segments_invariant (p : String) (s : String)
    (h : s ∈ pathSplit p false) :
    s ≠ "" ∧ '/' ∉ s.data ∧ '\\' ∉ s.data ∧
      ∀ pa : Path, pa.segments = pathSplit pa.value false := by
  have hg := pathSplit_mem_goodSeg p s h
  refine ⟨hg.1, ?_, goodSeg_mem_ne_bs hg.2, fun pa => rfl⟩
  intro hm
  have := hg.2 '/' hm
  simp [isSep] at this

theorem c10_witness :
    ("a" : String) ≠ "" ∧ '/' ∉ ("a" : String).data ∧ '\\' ∉ ("a" : String).data ∧
      ∀ pa : Path, pa.segments = pathSplit pa.value false :=
  c10_segments_invariant "a/b" "a" (by decide)

/-- C3 counterexample: the claim fails twice — when `ext` equals the path the
code returns `""` (not the path), and a backslash-only path defeats the
all-separator check (which tests only `/`), so the special case does not
apply to it. -/
theorem c3_counterexample :
    basename "///" (some "///") = "" ∧ ("" : String) ≠ "///" ∧
      basename "\\" (some "x") = "" ∧ ("" : String) ≠ "\\" :=
  ⟨by decide, by decide, by decide, by decide⟩

/-- C3 (amended): the special case applies exactly to paths consisting
entirely of `/` characters (or empty) — a `\` defeats the check — and for
such paths `basename(path, ext)` returns `""` when `ext` is absent, empty,
or EQUAL to the path, and returns the path unchanged only when `ext` is
supplied, non-empty and different from the path; in particular
`basename("///") = ""` and `basename("///", "///") = ""`. -/
theorem c3_basename_full_slash (p : String)
    (h : p.data.all (fun c => c == '/') = true) :
    basename p none = "" ∧
      (∀ e : String, basename p (some e) = if e = "" ∨ e = p then "" else p) ∧
      basename "///" none = "" ∧ basename "///" (some "///") = "" := by
  refine ⟨?_, ?_, by decide, by decide⟩
  · simp [basename, h]
  · intro e
    simp [basename, h]

theorem c3_witness :
    basename "///" none = "" ∧
      (∀ e : String,
        basename "///" (some e) = if e = "" ∨ e = "///" then "" else "///") ∧
      basename "///" none = "" ∧ basename "///" (some "///") = "" :=
  c3_basename_full_slash "///" (by decide)

/-- C4 counterexample: `escape` is `encodeURI`, which leaves `/` unencoded,
while the URI-component rule (`encodeURIComponent`) maps `/` to `%2F`. -/
theorem c4_counterexample :
    escape "/" = "/" ∧ encodeURIComponentRule "/" = "%2F" ∧
      ("/" : String) ≠ "%2F" :=
  ⟨by decide, by decide, by decide⟩

/-- C4 (amended): `escape(p)` percent-encodes `p` according to the rule of
`encodeURI` — characters in its unescaped set, which includes `/` and `:`,
pass through unchanged, and every other character becomes the `%XX`
percent-encoding of its UTF-8 bytes — and `Path.escape` returns a new
wrapped instance holding that encoded string. -/
theorem c4_escape_spec :
    (∀ p : String, escape p = encodeURI p) ∧
      (∀ c : Char, encodeURI (String.mk [c]) =
        if uriUnescaped c then String.mk [c]
        else String.mk (List.flatten ((utf8Bytes c).map percentByte))) ∧
      encodeURI "/" = "/" ∧ encodeURI ":" = ":" ∧
      ∀ p : Path, p.escape = Path.mk (escape p.value) := by
  refine ⟨fun p => rfl, ?_, by decide, by decide, fun p => rfl⟩
  intro c
  cases hc : uriUnescaped c <;> simp [encodeURI, hc]

/-! No-backslash facts for C2. -/

theorem bs_trail (t : String) (ht : t = "" ∨ t = "/") : '\\' ∉ t.data := by
  rcases ht with ht | ht <;> subst ht <;> decide

theorem bs_normalize (origin p : String) : '\\' ∉ (normalize origin p).data := by
  cases habs : isAbsolute origin p with
  | true =>
    rcases normalize_absolute_structure origin p habs with hq | ⟨rest, hne, hrest, hq⟩
    · rw [hq]; decide
    · rw [hq, data_append, data_append]
      intro hm
      rcases List.mem_append.mp hm with hm | hm
      · rw [slash_data] at hm
        simp at hm
      rcases List.mem_append.mp hm with hm | hm
      · exact joinSlash_bs_free rest (fun s hs => ((hrest s hs).1).2) hm
      · exact bs_trail _ (by cases endsWithSlash p <;> simp) hm
  | false =>
    obtain ⟨k, rest, hrest, hq⟩ := normalize_relative_structure origin p habs
    rw [hq, data_append]
    intro hm
    rcases List.mem_append.mp hm with hm | hm
    · by_cases hAnil : List.replicate k ".." ++ rest = []
      · rw [if_pos hAnil] at hm
        simp [String.data] at hm
      · rw [if_neg hAnil] at hm
        refine joinSlash_bs_free _ ?_ hm
        intro s hs
        rcases List.mem_append.mp hs with hs | hs
        · rw [List.eq_of_mem_replicate hs]
          decide
        · exact ((hrest s hs).1).2
    · exact bs_trail _ (by cases endsWithSlash p <;> simp) hm

theorem bs_join (origin : String) (ps : List String) :
    '\\' ∉ (join origin ps).data := by
  cases ps with
  | nil =>
    show '\\' ∉ ("." : String).data
    decide
  | cons p rest =>
    cases rest with
    | nil => exact bs_normalize origin p
    | cons q r2 => exact bs_normalize origin _

theorem bs_resolve (origin loc : String) (ps : List String) :
    '\\' ∉ (resolve origin loc ps).data := by
  obtain ⟨j, hj⟩ := resolve_shape origin loc ps
  rw [hj, data_append]
  intro hm
  rcases List.mem_append.mp hm with hm | hm
  · rw [slash_data] at hm
    simp at hm
  · refine joinSlash_bs_free _ ?_ hm
    intro s hs
    exact (pathSplit_mem_goodSeg j s (dropLeadingDots_subset _ s hs)).2

theorem dropTrailingEmpty_subset (l : List String) :
    ∀ s ∈ dropTrailingEmpty l, s ∈ l := by
  intro s hs
  unfold dropTrailingEmpty at hs
  rw [List.mem_reverse] at hs
  have hm := (List.dropWhile_sublist (fun s => s == "")).subset hs
  exact List.mem_reverse.mp hm

theorem bs_dirname (origin p : String) : '\\' ∉ (dirname origin p).data := by
  have harr : ∀ s ∈ (dropTrailingEmpty (pathSplit p true)).dropLast,
      ∀ c ∈ s.data, isSep c = false := by
    intro s hs
    exact pathSplit_true_mem_sepFree p s
      (dropTrailingEmpty_subset _ s (List.dropLast_subset _ hs))
  have hjs := joinSlash_bs_free _ harr
  simp only [dirname]
  split_ifs with h1 h2 h3
  · exact hjs
  · rw [data_append, slash_data]
    intro hm
    rcases List.mem_cons.mp hm with hm | hm
    · simp at hm
    · exact hjs hm
  · decide
  · exact hjs

theorem bs_basename (p : String) (ext : Option String) :
    '\\' ∉ (basename p ext).data := by
  simp only [basename]
  cases hfs : p.data.all (fun c => c == '/') with
  | true =>
    have hpb : '\\' ∉ p.data := by
      intro hm
      have := List.all_eq_true.mp hfs _ hm
      simp at this
    cases ext with
    | none => simp
    | some e =>
      simp only [if_true]
      split_ifs
      · simp [String.data]
      · exact hpb
  | false =>
    have hfile : ∀ c ∈ (((pathSplit p false).getLast?).getD "").data,
        isSep c = false := by
      cases hgl : (pathSplit p false).getLast? with
      | none => simp [String.data]
      | some f =>
        simp only [Option.getD_some]
        exact (pathSplit_mem_goodSeg p f (List.mem_of_getLast?_eq_some hgl)).2
    have hfb : '\\' ∉ (((pathSplit p false).getLast?).getD "").data :=
      goodSeg_mem_ne_bs hfile
    cases ext with
    | none => simpa using hfb
    | some e =>
      simp only [Bool.false_eq_true, if_false]
      split_ifs
      · intro hm
        exact hfb (List.take_subset _ _ hm)
      · exact hfb

theorem bs_extname (p : String) : '\\' ∉ (extname p).data := by
  have hfb : '\\' ∉ (((pathSplit p false).getLast?).getD "").data := by
    refine goodSeg_mem_ne_bs ?_
    cases hgl : (pathSplit p false).getLast? with
    | none => simp [String.data]
    | some f =>
      simp only [Option.getD_some]
      exact (pathSplit_mem_goodSeg p f (List.mem_of_getLast?_eq_some hgl)).2
  simp only [extname]
  cases hli : lastIndexOfChar '.' (((pathSplit p false).getLast?).getD "").data with
  | none => simp [String.data]
  | some i =>
    simp only []
    split_ifs
    · simp [String.data]
    · intro hm
      exact hfb (List.drop_subset _ _ hm)

theorem char_toNat_lt (c : Char) : c.toNat < 1114112 := by
  have h := c.valid
  rcases h with h | h
  · calc c.val.toNat < 55296 := h
      _ < 1114112 := by norm_num
  · exact h.2

theorem utf8Bytes_lt (c : Char) : ∀ b ∈ utf8Bytes c, b < 256 := by
  intro b hb
  have hc := char_toNat_lt c
  simp only [utf8Bytes] at hb
  split_ifs at hb with h1 h2 h3
  · simp at hb
    omega
  · simp at hb
    rcases hb with hb | hb <;> omega
  · simp at hb
    rcases hb with hb | hb | hb <;> omega
  · simp at hb
    rcases hb with hb | hb | hb | hb <;> omega

theorem hexDigit_ne_bs (n : Nat) (h : n < 37) : hexDigit n ≠ '\\' := by
  interval_cases n <;> decide

/-- C2 counterexample: `format` propagates a backslash supplied in the `dir`
field of its input record straight into its output. -/
theorem c2_counterexample :
    format (FormatInputPathObject.mk none (some "\\") (some "b") none none) =
      "\\/b" ∧ '\\' ∈ ("\\/b" : String).data :=
  ⟨by decide, by decide⟩

/-- C2 (amended): every public operation that consumes path STRINGS —
normalize, join, resolve, relative, dirname, basename, extname, parse and
escape — produces output containing no `\` (so `/` is its only separator),
whether the input used `/` or `\`; `format` is excluded, because it
concatenates its record fields verbatim and so reproduces a `\` supplied in
them. -/
theorem c2_slash_only_invariant (origin loc p f : String) (ps : List String)
    (ext : Option String) :
    '\\' ∉ (normalize origin p).data ∧
    '\\' ∉ (join origin ps).data ∧
    '\\' ∉ (resolve origin loc ps).data ∧
    '\\' ∉ (relative origin f p).data ∧
    '\\' ∉ (dirname origin p).data ∧
    '\\' ∉ (basename p ext).data ∧
    '\\' ∉ (extname p).data ∧
    '\\' ∉ ((parse origin p).root).data ∧
    '\\' ∉ ((parse origin p).dir).data ∧
    '\\' ∉ ((parse origin p).base).data ∧
    '\\' ∉ ((parse origin p).ext).data ∧
    '\\' ∉ ((parse origin p).name).data ∧
    '\\' ∉ (escape p).data := by
  refine ⟨bs_normalize origin p, bs_join origin ps, bs_resolve origin loc ps,
    bs_join origin [f, p], bs_dirname origin p, bs_basename p ext, bs_extname p,
    ?_, bs_dirname origin p, bs_basename p none, bs_extname p,
    bs_basename p (some (extname p)), ?_⟩
  · show '\\' ∉ (if strStartsWith p "/" then ("/" : String) else "").data
    split_ifs <;> decide
  · show '\\' ∉ (encodeURI p).data
    intro hm
    simp only [encodeURI] at hm
    rw [List.mem_flatten] at hm
    obtain ⟨l, hl, hcl⟩ := hm
    rw [List.mem_map] at hl
    obtain ⟨c, _, hfc⟩ := hl
    subst hfc
    by_cases hu : uriUnescaped c = true
    · rw [if_pos hu] at hcl
      simp at hcl
      rw [← hcl] at hu
      exact absurd hu (by decide)
    · rw [if_neg hu] at hcl
      rw [List.mem_flatten] at hcl
      obtain ⟨l2, hl2, hcl2⟩ := hcl
      rw [List.mem_map] at hl2
      obtain ⟨b, hb, hfb⟩ := hl2
      subst hfb
      have hblt : b < 256 := utf8Bytes_lt c b hb
      simp only [percentByte] at hcl2
      rcases List.mem_cons.mp hcl2 with hc2 | hc2
      · exact absurd hc2 (by decide)
      rcases List.mem_cons.mp hc2 with hc2 | hc2
      · exact hexDigit_ne_bs (b / 16) (by omega) hc2.symm
      rcases List.mem_cons.mp hc2 with hc2 | hc2
      · exact hexDigit_ne_bs (b % 16) (by omega) hc2.symm
      · simp at hc2

/-! Computation of `parse` fields on slash-canonical paths, for C1. -/

theorem ne_empty_of_data_ne_nil {s : String} (h : s.data ≠ []) : s ≠ "" := by
  intro hc
  subst hc
  exact h rfl

theorem mem_joinSlash_of_mem (l : List String) (s : String) (hs : s ∈ l)
    (c : Char) (hc : c ∈ s.data) : c ∈ (joinSlash l).data := by
  induction l with
  | nil => simp at hs
  | cons x r ih =>
    rcases List.mem_cons.mp hs with hx | hx
    · subst hx
      cases r with
      | nil => exact hc
      | cons t r2 =>
        rw [joinSlash_data_cons _ _ (by simp)]
        exact List.mem_append.mpr (Or.inl hc)
    · have h9 := ih hx
      cases r with
      | nil => simp at hx
      | cons t r2 =>
        rw [joinSlash_data_cons _ _ (by simp)]
        exact List.mem_append.mpr (Or.inr (List.mem_cons_of_mem '/' h9))

theorem pathSplit_build_false (lead : Bool) (segs : List String)
    (hgood : ∀ s ∈ segs, goodSeg s) :
    pathSplit ((if lead = true then "/" else "") ++ joinSlash segs) false = segs := by
  cases lead with
  | false =>
    show pathSplit ("" ++ joinSlash segs) false = segs
    rw [empty_append]
    unfold pathSplit
    have h9 := pathSplitAux_joinSlash_false segs hgood [] (Or.inl rfl)
    rw [List.append_nil] at h9
    exact h9
  | true =>
    show pathSplit ("/" ++ joinSlash segs) false = segs
    have h9 := pathSplit_abs_build segs hgood "" (Or.inl rfl)
    rw [append_empty] at h9
    exact h9

theorem pathSplit_build_true (lead : Bool) (segs : List String)
    (hgood : ∀ s ∈ segs, goodSeg s) :
    pathSplit ((if lead = true then "/" else "") ++ joinSlash segs) true =
      (if lead = true then [""] else []) ++ segs := by
  cases lead with
  | false =>
    show pathSplit ("" ++ joinSlash segs) true = [] ++ segs
    rw [empty_append, List.nil_append]
    exact pathSplitAux_joinSlash_true segs hgood
  | true =>
    show pathSplit ("/" ++ joinSlash segs) true = [""] ++ segs
    unfold pathSplit
    rw [data_append, slash_data,
      show ((['/'] : List Char) ++ (joinSlash segs).data) =
        '/' :: (joinSlash segs).data from rfl]
    rw [pathSplitAux_slash, pathSplitAux_joinSlash_true segs hgood]
    simp

theorem basename_build (lead : Bool) (segs : List String) (b : String)
    (hgood : ∀ s ∈ segs, goodSeg s) (hb : segs.getLast? = some b) :
    basename ((if lead = true then "/" else "") ++ joinSlash segs) none = b := by
  have hbg : goodSeg b := hgood b (List.mem_of_getLast?_eq_some hb)
  obtain ⟨c0, hc0b⟩ : ∃ c0, c0 ∈ b.data := by
    cases hd : b.data with
    | nil => exact absurd hd (goodSeg_data_ne_nil hbg)
    | cons x xs => exact ⟨x, by simp⟩
  have hc0s : isSep c0 = false := hbg.2 c0 hc0b
  have hc0p : c0 ∈ ((if lead = true then "/" else "") ++ joinSlash segs).data := by
    rw [data_append]
    exact List.mem_append.mpr (Or.inr
      (mem_joinSlash_of_mem segs b (List.mem_of_getLast?_eq_some hb) c0 hc0b))
  have hfs : ((if lead = true then "/" else "") ++ joinSlash segs).data.all
      (fun c => c == '/') = false := by
    cases hall : ((if lead = true then "/" else "") ++ joinSlash segs).data.all
        (fun c => c == '/') with
    | false => rfl
    | true =>
      have h5 := List.all_eq_true.mp hall c0 hc0p
      simp at h5
      rw [h5] at hc0s
      simp [isSep] at hc0s
  have hsplit := pathSplit_build_false lead segs hgood
  simp only [basename]
  rw [hfs]
  simp only [Bool.false_eq_true, if_false]
  rw [hsplit, hb]
  rfl

theorem endsWithSlash_joinSlash (l : List String) (hg : ∀ s ∈ l, goodSeg s)
    (hne : l ≠ []) : endsWithSlash (joinSlash l) = false := by
  obtain ⟨c, hc, hcs⟩ := joinSlash_getLast?_good l hg hne
  unfold endsWithSlash
  rw [hc]
  simp
  intro hcon
  rw [hcon] at hcs
  simp [isSep] at hcs

theorem endsWithSlash_slash_join (l : List String) (hg : ∀ s ∈ l, goodSeg s)
    (hne : l ≠ []) : endsWithSlash ("/" ++ joinSlash l) = false := by
  obtain ⟨c, hc, hcs⟩ := joinSlash_getLast?_good l hg hne
  unfold endsWithSlash
  rw [data_append, slash_data, List.getLast?_append, hc]
  simp
  intro hcon
  rw [hcon] at hcs
  simp [isSep] at hcs

theorem dirname_build (origin : String) (lead : Bool) (segs : List String)
    (hgood : ∀ s ∈ segs, goodSeg s) (hne : segs ≠ [])
    (habs : isAbsolute origin ((if lead = true then "/" else "") ++ joinSlash segs)
      = lead)
    (hlen : 2 ≤ segs.length ∨ lead = true) :
    dirname origin ((if lead = true then "/" else "") ++ joinSlash segs) =
      if lead = true then
        (if segs.dropLast = [] then "/" else "/" ++ joinSlash segs.dropLast)
      else joinSlash segs.dropLast := by
  obtain ⟨b, hb⟩ : ∃ b, segs.getLast? = some b := by
    cases hgl : segs.getLast? with
    | none => exact absurd (List.getLast?_eq_none_iff.mp hgl) hne
    | some x => exact ⟨x, rfl⟩
  have hbg : goodSeg b := hgood b (List.mem_of_getLast?_eq_some hb)
  have hsplitT := pathSplit_build_true lead segs hgood
  have hglT : ((if lead = true then [""] else []) ++ segs).getLast? = some b := by
    rw [List.getLast?_append, hb]
    rfl
  have hdte : dropTrailingEmpty ((if lead = true then [""] else []) ++ segs) =
      (if lead = true then [""] else []) ++ segs :=
    dropTrailingEmpty_of_getLast _ b hglT hbg.1
  have hdl : ((if lead = true then [""] else []) ++ segs).dropLast =
      (if lead = true then [""] else []) ++ segs.dropLast :=
    List.dropLast_append_of_ne_nil _ hne
  have hDgood : ∀ s ∈ segs.dropLast, goodSeg s :=
    fun s hs => hgood s (List.dropLast_subset _ hs)
  simp only [dirname, hsplitT, hdte, hdl, habs]
  cases lead with
  | false =>
    have hD : segs.dropLast ≠ [] := by
      rcases hlen with h | h
      · intro hc
        have h8 : segs.dropLast.length = 0 := by rw [hc]; rfl
        rw [List.length_dropLast] at h8
        omega
      · simp at h
    simp only [Bool.false_eq_true, if_false, List.nil_append]
    rw [if_neg (joinSlash_ne_empty _ hDgood hD)]
  | true =>
    simp only [if_true, List.singleton_append]
    by_cases hD : segs.dropLast = []
    · rw [hD]
      show (if (joinSlash [""]).data.head? == some '/' then joinSlash [""]
        else "/" ++ joinSlash [""]) = "/"
      show (if ("" : String).data.head? == some '/' then ("" : String)
        else "/" ++ ("" : String)) = "/"
      rw [if_neg (by simp), append_empty]
    · have hps : joinSlash ("" :: segs.dropLast) = "/" ++ joinSlash segs.dropLast := by
        obtain ⟨d, D2, hdd⟩ := List.exists_cons_of_ne_nil hD
        rw [hdd, joinSlash_cons_cons, empty_append]
      rw [hps, if_neg hD]
      rw [if_pos (by rw [data_append, slash_data]; rfl)]

/-- C1 counterexample: the single-segment relative path `"a"` has no
redundant separators and no trailing slash, yet `parse` gives it `dir = "."`
and `format` therefore rebuilds `"./a"`, not `"a"`. -/
theorem c1_counterexample :
    format (ParsedPath.toInput (parse "https://example.com" "a")) = "./a" ∧
      ("./a" : String) ≠ "a" :=
  ⟨by decide, by decide⟩

/-- C1 (amended): `format(parse(p)) = p` holds for every path `p` in
canonical form — built from non-empty separator-free segments joined by
single `/`, with no trailing slash — provided `p` either is absolute
(leading `/`, and classified absolute exactly by that, `lead = true`) or is
relative with at least two segments; single-segment relative paths (and the
empty path) come back with a `./` prefix instead. -/
theorem c1_format_parse_roundtrip (origin : String) (lead : Bool)
    (segs : List String) (hgood : ∀ s ∈ segs, goodSeg s)
    (hlen : 2 ≤ segs.length ∨ (lead = true ∧ segs ≠ []))
    (habs : isAbsolute origin ((if lead = true then "/" else "") ++ joinSlash segs)
      = lead) :
    format (ParsedPath.toInput (parse origin
      ((if lead = true then "/" else "") ++ joinSlash segs))) =
      (if lead = true then "/" else "") ++ joinSlash segs := by
  have hne : segs ≠ [] := by
    rcases hlen with h | h
    · intro hc
      rw [hc] at h
      simp at h
    · exact h.2
  obtain ⟨b, hb⟩ : ∃ b, segs.getLast? = some b := by
    cases hgl : segs.getLast? with
    | none => exact absurd (List.getLast?_eq_none_iff.mp hgl) hne
    | some x => exact ⟨x, rfl⟩
  have hbg : goodSeg b := hgood b (List.mem_of_getLast?_eq_some hb)
  have hDgood : ∀ s ∈ segs.dropLast, goodSeg s :=
    fun s hs => hgood s (List.dropLast_subset _ hs)
  have hbase := basename_build lead segs b hgood hb
  have hdir := dirname_build origin lead segs hgood hne habs
    (by
      rcases hlen with h | h
      · exact Or.inl h
      · exact Or.inr h.1)
  have hsegs_eq : segs.dropLast ++ [b] = segs :=
    List.dropLast_append_getLast? b hb
  have hdne : dirname origin
      ((if lead = true then "/" else "") ++ joinSlash segs) ≠ "" := by
    rw [hdir]
    cases lead with
    | true =>
      simp only [if_true]
      by_cases hD : segs.dropLast = []
      · rw [if_pos hD]
        decide
      · rw [if_neg hD]
        apply ne_empty_of_data_ne_nil
        rw [data_append, slash_data]
        simp
    | false =>
      simp only [Bool.false_eq_true, if_false]
      have hD : segs.dropLast ≠ [] := by
        rcases hlen with h | h
        · intro hc
          have h8 : segs.dropLast.length = 0 := by rw [hc]; rfl
          rw [List.length_dropLast] at h8
          omega
        · simp at h
      exact joinSlash_ne_empty _ hDgood hD
  have hfmt := format_of_dir
    (ParsedPath.toInput (parse origin
      ((if lead = true then "/" else "") ++ joinSlash segs)))
    (dirname origin ((if lead = true then "/" else "") ++ joinSlash segs))
    rfl hdne
  rw [hfmt]
  have hB : (ParsedPath.toInput (parse origin
        ((if lead = true then "/" else "") ++ joinSlash segs))).base.getD
      ((ParsedPath.toInput (parse origin
        ((if lead = true then "/" else "") ++ joinSlash segs))).name.getD "" ++
       (ParsedPath.toInput (parse origin
        ((if lead = true then "/" else "") ++ joinSlash segs))).ext.getD "") =
      b := hbase
  rw [hB, hdir]
  cases lead with
  | true =>
    simp only [if_true]
    by_cases hD : segs.dropLast = []
    · rw [if_pos hD]
      have hsegs1 : segs = [b] := by
        rw [← hsegs_eq, hD]
        rfl
      rw [show endsWithSlash "/" = true from rfl, if_pos rfl, hsegs1]
      rfl
    · rw [if_neg hD]
      have hend : endsWithSlash ("/" ++ joinSlash segs.dropLast) = false :=
        endsWithSlash_slash_join _ hDgood hD
      rw [hend]
      simp only [Bool.false_eq_true, if_false]
      have hJ : joinSlash segs = joinSlash segs.dropLast ++ "/" ++ b := by
        conv_lhs => rw [← hsegs_eq]
        rw [joinSlash_concat _ b hD]
      rw [hJ]
      exact str_ext (by simp [data_append, List.append_assoc])
  | false =>
    simp only [Bool.false_eq_true, if_false]
    have hD : segs.dropLast ≠ [] := by
      rcases hlen with h | h
      · intro hc
        have h8 : segs.dropLast.length = 0 := by rw [hc]; rfl
        rw [List.length_dropLast] at h8
        omega
      · simp at h
    have hend : endsWithSlash (joinSlash segs.dropLast) = false :=
      endsWithSlash_joinSlash _ hDgood hD
    rw [hend]
    simp only [Bool.false_eq_true, if_false]
    have hJ : joinSlash segs = joinSlash segs.dropLast ++ "/" ++ b := by
      conv_lhs => rw [← hsegs_eq]
      rw [joinSlash_concat _ b hD]
    rw [empty_append, hJ]

theorem c1_witness :
    format (ParsedPath.toInput (parse "https://example.com"
      ((if false = true then "/" else "") ++ joinSlash ["a", "b"]))) =
      (if false = true then "/" else "") ++ joinSlash ["a", "b"] :=
  c1_format_parse_roundtrip "https://example.com" false ["a", "b"]
    (by intro s hs; fin_cases hs <;> exact ⟨by decide, by decide⟩)
    (Or.inl (by decide)) (by decide)

end Magic
